import Mathlib

/-!
Shallow embedding of the transcript chunker (`src/lib/utils/transcript-chunker.ts`)
and the flashcard chunk-result aggregator
(`src/lib/services/llm/openai-provider.ts`, `generateFlashcardsFromChunks`)
of the tubesummy repository, together with proofs of the frozen claims.

Numbers (seconds) are modelled as rationals; the external LLM call made per
chunk is modelled as an explicit function argument returning `Except`.
-/

namespace Tubesummy

/-- `TranscriptItem` from `src/lib/types/index.ts`: one span of transcribed
speech (`text`, `start` seconds, `duration` seconds). -/
structure TranscriptItem where
  text : String
  start : ℚ
  duration : ℚ
deriving DecidableEq, Inhabited

/-- `TranscriptChunk` from `src/lib/types/index.ts`. -/
structure TranscriptChunk where
  index : Nat
  items : List TranscriptItem
  startTime : ℚ
  endTime : ℚ
  text : String
deriving DecidableEq, Inhabited

/-- `TARGET_CHUNK_DURATION = 20 * 60` seconds. -/
def TARGET_CHUNK_DURATION : ℚ := 20 * 60

/-- `TOLERANCE_WINDOW = 2 * 60` seconds. -/
def TOLERANCE_WINDOW : ℚ := 2 * 60

/-- `MIN_GAP_FOR_BREAK = 3` seconds. -/
def MIN_GAP_FOR_BREAK : ℚ := 3

/-- JavaScript `Math.abs` on rationals. -/
def mathAbs (q : ℚ) : ℚ := if q < 0 then -q else q

/-- `getGapBetweenItems` from transcript-chunker.ts. -/
def getGapBetweenItems (current next : TranscriptItem) : ℚ :=
  let currentEnd := current.start + current.duration
  next.start - currentEnd

/-- The `BreakCandidate` record built inside `findNaturalBreakPoint`. -/
structure BreakCandidate where
  index : Nat
  gap : ℚ
  timeDiff : ℚ
deriving DecidableEq, Inhabited

/-- The candidate-collecting loop of `findNaturalBreakPoint`
(`for (let i = startIndex; i < items.length - 1; i++) ...`), embedded as
structural recursion over the remaining items: the list argument holds
`items.drop i`, and the loop body runs while at least two items remain
(`i < items.length - 1`).  A candidate is pushed when the item end time is
inside `[target - TOLERANCE_WINDOW, target + TOLERANCE_WINDOW]`; the scan
breaks after an item whose end time passed the upper bound. -/
def collectCandidatesAux (targetEndTime : ℚ) : Nat → List TranscriptItem → List BreakCandidate
  | i, item :: next :: rest =>
    let itemEndTime := item.start + item.duration
    let here : List BreakCandidate :=
      if targetEndTime - TOLERANCE_WINDOW ≤ itemEndTime ∧ itemEndTime ≤ targetEndTime + TOLERANCE_WINDOW then
        [{ index := i, gap := getGapBetweenItems item next, timeDiff := mathAbs (itemEndTime - targetEndTime) }]
      else []
    if targetEndTime + TOLERANCE_WINDOW < itemEndTime then here
    else here ++ collectCandidatesAux targetEndTime (i + 1) (next :: rest)
  | _, _ => []

/-- The candidates found by `findNaturalBreakPoint items startIndex targetEndTime`. -/
def collectCandidates (items : List TranscriptItem) (startIndex : Nat) (targetEndTime : ℚ) : List BreakCandidate :=
  collectCandidatesAux targetEndTime startIndex (items.drop startIndex)

/-- `diff < closestDiff` where `closestDiff` starts as JavaScript `Infinity`
(modelled by `none`). -/
def diffLtOpt (d : ℚ) : Option ℚ → Bool
  | none => true
  | some c => decide (d < c)

/-- The fallback loop of `findNaturalBreakPoint` when no candidate is in the
window: scan from `startIndex`, keep the first index with the strictly
smallest `|end - target|`, and break after an item whose end time passed
`target + TOLERANCE_WINDOW * 2`.  The list argument holds `items.drop i`. -/
def closestScanAux (targetEndTime : ℚ) : List TranscriptItem → Nat → Nat → Option ℚ → Nat
  | [], _, closestIndex, _ => closestIndex
  | item :: rest, i, closestIndex, closestDiff =>
    let itemEndTime := item.start + item.duration
    let diff := mathAbs (itemEndTime - targetEndTime)
    let ci := if diffLtOpt diff closestDiff then i else closestIndex
    let cd := if diffLtOpt diff closestDiff then some diff else closestDiff
    if targetEndTime + TOLERANCE_WINDOW * 2 < itemEndTime then ci
    else closestScanAux targetEndTime rest (i + 1) ci cd

/-- The candidate comparator passed to `candidates.sort` in
`findNaturalBreakPoint`: negative means `a` is ordered before `b`. -/
def compareCandidates (a b : BreakCandidate) : ℚ :=
  let aHasGap := MIN_GAP_FOR_BREAK ≤ a.gap
  let bHasGap := MIN_GAP_FOR_BREAK ≤ b.gap
  if aHasGap ∧ ¬bHasGap then -1
  else if ¬aHasGap ∧ bHasGap then 1
  else if a.gap ≠ b.gap then b.gap - a.gap
  else a.timeDiff - b.timeDiff

/-- Stable insertion of `a` into `l`: `a` goes before the first element `b`
with `cmp a b < 0`.  Together with `sortByCmp` this is the unique stable
sort for a consistent comparator, which is what `Array.prototype.sort`
performs. -/
def insertByCmp (cmp : α → α → ℚ) (a : α) : List α → List α
  | [] => [a]
  | b :: l => if cmp a b < 0 then a :: b :: l else b :: insertByCmp cmp a l

/-- Stable sort by a JavaScript-style comparator. -/
def sortByCmp (cmp : α → α → ℚ) : List α → List α
  | [] => []
  | a :: l => insertByCmp cmp a (sortByCmp cmp l)

/-- `findNaturalBreakPoint` from transcript-chunker.ts: best break point near
the target time; returns the index of the last item of the current chunk. -/
def findNaturalBreakPoint (items : List TranscriptItem) (startIndex : Nat) (targetEndTime : ℚ) : Nat :=
  let candidates := collectCandidates items startIndex targetEndTime
  if candidates.isEmpty then
    closestScanAux targetEndTime (items.drop startIndex) startIndex startIndex none
  else
    ((sortByCmp compareCandidates candidates).headD default).index

/-- `chunkItems.map(item => item.text).join(" ")`. -/
def joinTexts (chunkItems : List TranscriptItem) : String :=
  String.intercalate " " (chunkItems.map (fun item => item.text))

/-- The `while (currentStartIndex < items.length)` loop of
`splitTranscriptIntoChunks`.  The loop body runs at most 21 times on any
input - after the 21st chunk is pushed, `chunkIndex > 20` stops it - so it
is embedded with an explicit iteration allowance (first argument); the
allowance 21 used by `splitTranscriptIntoChunks` is never exhausted, and
the result is the same under any larger allowance (see the fuel-irrelevance
part of the safety-valve theorem). -/
def chunkLoop (items : List TranscriptItem) : Nat → Nat → Nat → List TranscriptChunk
  | 0, _, _ => []
  | fuel + 1, currentStartIndex, chunkIndex =>
    if currentStartIndex < items.length then
      let chunkStartTime := (items.getD currentStartIndex default).start
      let targetEndTime := chunkStartTime + TARGET_CHUNK_DURATION
      let lastItem := items.getLastD default
      let transcriptEndTime := lastItem.start + lastItem.duration
      if transcriptEndTime - TOLERANCE_WINDOW ≤ targetEndTime then
        let chunkItems := items.drop currentStartIndex
        [{ index := chunkIndex, items := chunkItems, startTime := chunkStartTime,
           endTime := transcriptEndTime, text := joinTexts chunkItems }]
      else
        let breakIndex := findNaturalBreakPoint items currentStartIndex targetEndTime
        let chunkItems := (items.drop currentStartIndex).take (breakIndex + 1 - currentStartIndex)
        let lastChunkItem := chunkItems.getLastD default
        let chunk : TranscriptChunk :=
          { index := chunkIndex, items := chunkItems, startTime := chunkStartTime,
            endTime := lastChunkItem.start + lastChunkItem.duration, text := joinTexts chunkItems }
        if chunkIndex + 1 > 20 then
          chunk :: (if breakIndex + 1 < items.length then
            let remainingItems := items.drop (breakIndex + 1)
            [{ index := chunkIndex + 1, items := remainingItems,
               startTime := (remainingItems.headD default).start,
               endTime := (remainingItems.getLastD default).start + (remainingItems.getLastD default).duration,
               text := joinTexts remainingItems }]
          else [])
        else chunk :: chunkLoop items fuel (breakIndex + 1) (chunkIndex + 1)
    else []

/-- `splitTranscriptIntoChunks` from transcript-chunker.ts. -/
def splitTranscriptIntoChunks (items : List TranscriptItem) (totalDuration : ℚ) : List TranscriptChunk :=
  if items.length = 0 then []
  else if totalDuration ≤ TARGET_CHUNK_DURATION + TOLERANCE_WINDOW then
    [{ index := 0, items := items, startTime := (items.headD default).start,
       endTime := (items.getLastD default).start + (items.getLastD default).duration,
       text := joinTexts items }]
  else
    chunkLoop items 21 0 0

/-- `Language` from `src/lib/types/index.ts` (`"pt-BR" | "en"`). -/
inductive Language where
  | ptBR
  | en
deriving DecidableEq, Inhabited

/-- `FlashcardDifficulty` from `src/lib/types/index.ts`. -/
inductive FlashcardDifficulty where
  | beginner
  | intermediate
  | advanced
deriving DecidableEq, Inhabited

/-- `Flashcard` from `src/lib/types/index.ts`; `tags` is optional. -/
structure Flashcard where
  id : String
  question : String
  answer : String
  tags : Option (List String)
deriving DecidableEq, Inhabited

/-- The optional `metadata` record of `FlashcardSet`; every field is optional. -/
structure FlashcardSetMetadata where
  videoUrl : Option String
  totalChunks : Option Nat
  successfulChunks : Option Nat
  fileName : Option String
  fileSize : Option Nat
deriving DecidableEq, Inhabited

/-- `FlashcardSet` from `src/lib/types/index.ts`. -/
structure FlashcardSet where
  topic : String
  difficulty : FlashcardDifficulty
  language : Language
  flashcards : List Flashcard
  metadata : Option FlashcardSetMetadata
deriving DecidableEq, Inhabited

/-- Whether an `Except` result is an error (a rejected promise / thrown error). -/
def exceptIsError : Except ε α → Bool
  | Except.error _ => true
  | Except.ok _ => false

/-- The `results.forEach` pass of `generateFlashcardsFromChunks` that pushes
each fulfilled result, in order, into `successfulSets`. -/
def collectSuccessful (results : List (Except String FlashcardSet)) : List FlashcardSet :=
  results.filterMap (fun r =>
    match r with
    | Except.ok s => some s
    | Except.error _ => none)

/-- The `difficulties.reduce` step of `generateFlashcardsFromChunks`: tally
difficulties into an association list whose order is first-occurrence order,
as a JavaScript object with string keys preserves insertion order. -/
def tallyDifficulties (difficulties : List FlashcardDifficulty) : List (FlashcardDifficulty × Nat) :=
  difficulties.foldl
    (fun acc d =>
      if acc.any (fun p => p.1 == d) then
        acc.map (fun p => if p.1 == d then (p.1, p.2 + 1) else p)
      else acc ++ [(d, 1)])
    []

/-- `generateFlashcardsFromChunks` from
`src/lib/services/llm/openai-provider.ts`.  The per-chunk LLM call
(`generateFlashcardsFromChunk`, awaited through `Promise.allSettled`) is an
external collaborator and is passed in as `generate`; a rejected promise is
an `Except.error`.  Thrown errors are `Except.error` results. -/
def generateFlashcardsFromChunks (chunks : List TranscriptChunk) (language : Language)
    (videoUrl : Option String) (generate : TranscriptChunk → Except String FlashcardSet) :
    Except String FlashcardSet :=
  if chunks.length = 0 then Except.error "No transcript chunks provided"
  else
    let results := chunks.map generate
    let successfulSets := collectSuccessful results
    if successfulSets.length = 0 then Except.error "All chunks failed to generate flashcards"
    else
      let consolidatedFlashcards : List Flashcard :=
        successfulSets.enum.foldl
          (fun acc p =>
            p.2.flashcards.foldl
              (fun acc2 card => acc2 ++ [{ card with id := Nat.repr (p.1 + 1) ++ "-" ++ card.id }])
              acc)
          []
      let topics := successfulSets.map (fun s => s.topic)
      let mainTopic :=
        if topics.length = 1 then topics.headD ""
        else topics.headD "" ++ " (e mais " ++ Nat.repr (topics.length - 1) ++ " tópicos)"
      let difficulties := successfulSets.map (fun s => s.difficulty)
      let difficultyCount := tallyDifficulties difficulties
      let mainDifficulty :=
        match (sortByCmp (fun a b => ((b.2 : ℚ) - (a.2 : ℚ))) difficultyCount).head? with
        | some p => p.1
        | none => FlashcardDifficulty.intermediate
      Except.ok
        { topic := mainTopic
          difficulty := mainDifficulty
          language := language
          flashcards := consolidatedFlashcards
          metadata := some { videoUrl := videoUrl, totalChunks := some chunks.length,
                             successfulChunks := some successfulSets.length,
                             fileName := none, fileSize := none } }

/-! Spec-side definitions used to state the claims. -/

/-- The end time (`start + duration`) of the segment at position `j`. -/
def endTimeAt (items : List TranscriptItem) (j : Nat) : ℚ :=
  (items.getD j default).start + (items.getD j default).duration

/-- A candidate with a significant silence gap (`gap >= MIN_GAP_FOR_BREAK`). -/
def hasSignificantGap (c : BreakCandidate) : Prop :=
  MIN_GAP_FOR_BREAK ≤ c.gap

instance (c : BreakCandidate) : Decidable (hasSignificantGap c) := by
  unfold hasSignificantGap; infer_instance

/-- The lexicographic break-point preference order of the spec: a candidate
with a significant gap beats one without, regardless of time distance; among
same-gap-class candidates the larger gap wins; remaining ties are broken by
the smaller absolute time distance to the target. -/
def preferredOver (a b : BreakCandidate) : Prop :=
  (hasSignificantGap a ∧ ¬hasSignificantGap b) ∨
  ((hasSignificantGap a ↔ hasSignificantGap b) ∧ b.gap < a.gap) ∨
  ((hasSignificantGap a ↔ hasSignificantGap b) ∧ a.gap = b.gap ∧ a.timeDiff < b.timeDiff)

instance (a b : BreakCandidate) : Decidable (preferredOver a b) := by
  unfold preferredOver; infer_instance

/-- The positions scanned by the fallback loop of `findNaturalBreakPoint`,
paired with their absolute time distance to the target: the scan walks from
the start position and stops with (and including) the first segment whose
end time exceeds `target + TOLERANCE_WINDOW * 2`.  The list argument holds
the items from position `i` on. -/
def scannedDiffs (targetEndTime : ℚ) : List TranscriptItem → Nat → List (Nat × ℚ)
  | [], _ => []
  | item :: rest, i =>
    let itemEndTime := item.start + item.duration
    (i, mathAbs (itemEndTime - targetEndTime)) ::
      (if targetEndTime + TOLERANCE_WINDOW * 2 < itemEndTime then []
       else scannedDiffs targetEndTime rest (i + 1))

/-- Sample transcript used to witness partition completeness. -/
def c1Items : List TranscriptItem :=
  [{ text := "x", start := 0, duration := 1 }, { text := "y", start := 1, duration := 2 }]

/-- Sample transcript with two in-window break candidates of equal gap. -/
def c3Items : List TranscriptItem :=
  [{ text := "a", start := 0, duration := 100 }, { text := "b", start := 105, duration := 100 },
   { text := "c", start := 210, duration := 50 }]

/-- Sample transcript for the final-chunk-condition counterexample: 1350 s
long, so the single-chunk shortcut does not apply, yet the first target end
time (1200 s) is more than the tolerance window away from the true end. -/
def c5Items : List TranscriptItem :=
  [{ text := "a", start := 0, duration := 1000 }, { text := "b", start := 1000, duration := 350 }]

/-- One-segment transcript used to witness the amended final-chunk condition. -/
def c5wItems : List TranscriptItem := [{ text := "a", start := 0, duration := 100 }]

/-- Sample transcript for the fallback-scan counterexample: no candidate in
the window around target 400, and the fallback keeps the second segment
whose end time (660) lies past 400 + 2 * 120. -/
def c6Items : List TranscriptItem :=
  [{ text := "a", start := 0, duration := 100 }, { text := "b", start := 100, duration := 560 }]

/-- Sample transcript used to witness the amended fallback description. -/
def c6wItems : List TranscriptItem :=
  [{ text := "a", start := 0, duration := 100 }, { text := "b", start := 100, duration := 560 }]

/-- One-segment transcript used to witness the safety-valve behaviour. -/
def c7Items : List TranscriptItem := [{ text := "a", start := 0, duration := 2000 }]

/-- Short sample transcript used to witness the single-chunk shortcut. -/
def c8Items : List TranscriptItem :=
  [{ text := "hello", start := 0, duration := 2 }, { text := "world", start := 2, duration := 3 }]

/-- The item IDs of an aggregation result (empty for an error). -/
def idsOfResult : Except String FlashcardSet → List String
  | Except.ok fs => fs.flashcards.map Flashcard.id
  | Except.error _ => []

/-- Three sample chunks fed to the aggregator. -/
def c4Chunks : List TranscriptChunk :=
  [{ index := 0, items := [], startTime := 0, endTime := 0, text := "t0" },
   { index := 1, items := [], startTime := 0, endTime := 0, text := "t1" },
   { index := 2, items := [], startTime := 0, endTime := 0, text := "t2" }]

/-- A sample per-chunk flashcard set. -/
def c4Set : FlashcardSet :=
  { topic := "T", difficulty := FlashcardDifficulty.beginner, language := Language.en,
    flashcards := [{ id := "1", question := "q", answer := "a", tags := none }],
    metadata := none }

/-- A sample chunk for the ID-uniqueness counterexample. -/
def c9Chunk : TranscriptChunk :=
  { index := 0, items := [], startTime := 0, endTime := 0, text := "t" }

/-- A per-chunk result whose two flashcards share the id "1"; the LLM is
only asked, never forced, to return unique ids. -/
def c9DupSet : FlashcardSet :=
  { topic := "T", difficulty := FlashcardDifficulty.beginner, language := Language.en,
    flashcards := [{ id := "1", question := "q1", answer := "a1", tags := none },
                   { id := "1", question := "q2", answer := "a2", tags := none }],
    metadata := none }

/-- A per-chunk result with distinct flashcard ids. -/
def c9GoodSet : FlashcardSet :=
  { topic := "T", difficulty := FlashcardDifficulty.beginner, language := Language.en,
    flashcards := [{ id := "1", question := "q1", answer := "a1", tags := none },
                   { id := "2", question := "q2", answer := "a2", tags := none }],
    metadata := none }

/-- A sample chunk used for the frame-effect witness. -/
def c10Chunk : TranscriptChunk :=
  { index := 0, items := [], startTime := 0, endTime := 0, text := "t" }

/-- A per-chunk result used for the frame-effect witness. -/
def c10Set : FlashcardSet :=
  { topic := "T", difficulty := FlashcardDifficulty.advanced, language := Language.en,
    flashcards := [{ id := "7", question := "q7", answer := "a7", tags := some ["x"] }],
    metadata := none }

/-- Sort key of a break candidate: gap class first (0 when the gap is
significant), then the negated gap, then the time distance; the comparator
`compareCandidates` orders candidates lexicographically by this key. -/
def candidateKey (c : BreakCandidate) : ℚ × ℚ × ℚ :=
  (if MIN_GAP_FOR_BREAK ≤ c.gap then 0 else 1, -c.gap, c.timeDiff)

/-- Lexicographic non-strict order on sort keys. -/
def keyLe (x y : ℚ × ℚ × ℚ) : Prop :=
  x.1 < y.1 ∨ (x.1 = y.1 ∧ (x.2.1 < y.2.1 ∨ (x.2.1 = y.2.1 ∧ x.2.2 ≤ y.2.2)))

/-! Helper lemmas. -/

theorem mem_insertByCmp {cmp : α → α → ℚ} {a x : α} {l : List α} :
    x ∈ insertByCmp cmp a l ↔ x = a ∨ x ∈ l := by
  induction l with
  | nil => simp [insertByCmp]
  | cons b t ih =>
    simp only [insertByCmp]
    split
    · simp
    · simp only [List.mem_cons, ih]
      tauto

theorem mem_sortByCmp {cmp : α → α → ℚ} {x : α} {l : List α} :
    x ∈ sortByCmp cmp l ↔ x ∈ l := by
  induction l with
  | nil => simp [sortByCmp]
  | cons a t ih => simp [sortByCmp, mem_insertByCmp, ih]

theorem insertByCmp_ne_nil {cmp : α → α → ℚ} {a : α} {l : List α} :
    insertByCmp cmp a l ≠ [] := by
  cases l with
  | nil => simp [insertByCmp]
  | cons b t =>
    simp only [insertByCmp]
    split <;> simp

theorem sortByCmp_ne_nil {cmp : α → α → ℚ} {l : List α} (h : l ≠ []) :
    sortByCmp cmp l ≠ [] := by
  cases l with
  | nil => exact absurd rfl h
  | cons a t => exact insertByCmp_ne_nil

theorem headD_mem {l : List α} (h : l ≠ []) (d : α) : l.headD d ∈ l := by
  cases l with
  | nil => exact absurd rfl h
  | cons a t => simp

theorem compareCandidates_self (a : BreakCandidate) : compareCandidates a a = 0 := by
  simp only [compareCandidates]
  split_ifs with h1 h2 h3
  · exact absurd h1.1 h1.2
  · exact absurd h2.2 h2.1
  · exact absurd rfl h3
  · ring

theorem compareCandidates_antisym (a b : BreakCandidate)
    (h : 0 ≤ compareCandidates a b) : compareCandidates b a ≤ 0 := by
  rcases eq_or_ne a.gap b.gap with gab | gab
  · by_cases ha : MIN_GAP_FOR_BREAK ≤ a.gap <;>
      by_cases hb : MIN_GAP_FOR_BREAK ≤ b.gap <;>
      simp [compareCandidates, ha, hb, gab] at h ⊢ <;>
      first
        | linarith
        | exact absurd (gab ▸ ha) hb
        | exact absurd (gab.symm ▸ hb) ha
  · have gba : b.gap ≠ a.gap := gab.symm
    by_cases ha : MIN_GAP_FOR_BREAK ≤ a.gap <;>
      by_cases hb : MIN_GAP_FOR_BREAK ≤ b.gap <;>
      simp [compareCandidates, ha, hb, gab, gba] at h ⊢ <;>
      first | linarith | tauto

theorem compareCandidates_skew (a b : BreakCandidate) :
    compareCandidates b a = -compareCandidates a b := by
  rcases eq_or_ne a.gap b.gap with gab | gab
  · by_cases ha : MIN_GAP_FOR_BREAK ≤ a.gap <;>
      by_cases hb : MIN_GAP_FOR_BREAK ≤ b.gap <;>
      simp [compareCandidates, ha, hb, gab] <;>
      first
        | ring
        | linarith
        | exact absurd (gab ▸ ha) hb
        | exact absurd (gab.symm ▸ hb) ha
  · have gba : b.gap ≠ a.gap := gab.symm
    by_cases ha : MIN_GAP_FOR_BREAK ≤ a.gap <;>
      by_cases hb : MIN_GAP_FOR_BREAK ≤ b.gap <;>
      simp [compareCandidates, ha, hb, gab, gba] <;>
      first | ring | linarith | tauto

theorem compareCandidates_nonpos_iff (a b : BreakCandidate) :
    compareCandidates a b ≤ 0 ↔ keyLe (candidateKey a) (candidateKey b) := by
  rcases eq_or_ne a.gap b.gap with gab | gab
  · by_cases ha : MIN_GAP_FOR_BREAK ≤ a.gap <;>
      by_cases hb : MIN_GAP_FOR_BREAK ≤ b.gap <;>
      simp [compareCandidates, candidateKey, keyLe, ha, hb, gab] <;>
      first
        | (constructor <;> intro <;> linarith)
        | linarith
        | exact absurd (gab ▸ ha) hb
        | exact absurd (gab.symm ▸ hb) ha
  · by_cases ha : MIN_GAP_FOR_BREAK ≤ a.gap <;>
      by_cases hb : MIN_GAP_FOR_BREAK ≤ b.gap <;>
      simp [compareCandidates, candidateKey, keyLe, ha, hb, gab] <;>
      first
        | exact ⟨fun h => lt_of_le_of_ne h (Ne.symm gab), le_of_lt⟩
        | (constructor <;> intro <;> linarith)
        | linarith
        | norm_num

theorem keyLe_trans {x y z : ℚ × ℚ × ℚ} (h1 : keyLe x y) (h2 : keyLe y z) : keyLe x z := by
  unfold keyLe at *
  rcases h1 with h1 | ⟨e1, h1⟩ <;> rcases h2 with h2 | ⟨e2, h2⟩
  · exact Or.inl (lt_trans h1 h2)
  · exact Or.inl (e2 ▸ h1)
  · exact Or.inl (e1 ▸ h2)
  · refine Or.inr ⟨e1.trans e2, ?_⟩
    rcases h1 with h1 | ⟨f1, h1⟩ <;> rcases h2 with h2 | ⟨f2, h2⟩
    · exact Or.inl (lt_trans h1 h2)
    · exact Or.inl (f2 ▸ h1)
    · exact Or.inl (f1 ▸ h2)
    · exact Or.inr ⟨f1.trans f2, h1.trans h2⟩

theorem compareCandidates_trans {a b c : BreakCandidate}
    (h1 : compareCandidates a b ≤ 0) (h2 : compareCandidates b c ≤ 0) :
    compareCandidates a c ≤ 0 := by
  rw [compareCandidates_nonpos_iff] at h1 h2 ⊢
  exact keyLe_trans h1 h2

theorem insertByCmp_headD_le (a : BreakCandidate) (s : List BreakCandidate) (d : BreakCandidate)
    (hmin : ∀ x ∈ s, compareCandidates (s.headD d) x ≤ 0) :
    ∀ x, (x = a ∨ x ∈ s) →
      compareCandidates ((insertByCmp compareCandidates a s).headD d) x ≤ 0 := by
  cases s with
  | nil =>
    intro x hx
    rcases hx with h9 | h9
    · rw [h9]
      simp [insertByCmp, compareCandidates_self]
    · simp at h9
  | cons b t =>
    by_cases h : compareCandidates a b < 0
    · intro x hx
      rcases hx with h9 | h9
      · rw [h9]
        simp [insertByCmp, h, compareCandidates_self]
      · simp only [insertByCmp, if_pos h, List.headD_cons]
        exact compareCandidates_trans (le_of_lt h) (hmin x h9)
    · intro x hx
      rcases hx with h9 | h9
      · rw [h9]
        simp only [insertByCmp, if_neg h, List.headD_cons]
        push_neg at h
        exact compareCandidates_antisym a b h
      · simp only [insertByCmp, if_neg h, List.headD_cons]
        exact hmin x h9

theorem sortByCmp_headD_min (l : List BreakCandidate) (d : BreakCandidate) :
    ∀ x ∈ l, compareCandidates ((sortByCmp compareCandidates l).headD d) x ≤ 0 := by
  induction l with
  | nil => intro x hx; simp at hx
  | cons a t ih =>
    intro x hx
    have hx2 : x = a ∨ x ∈ sortByCmp compareCandidates t := by
      rcases List.mem_cons.mp hx with h | h
      · exact Or.inl h
      · exact Or.inr (mem_sortByCmp.mpr h)
    exact insertByCmp_headD_le a (sortByCmp compareCandidates t) d
      (fun y hy => ih y (mem_sortByCmp.mp hy)) x hx2

theorem preferredOver_iff_lt (a b : BreakCandidate) :
    preferredOver a b ↔ compareCandidates a b < 0 := by
  rcases eq_or_ne a.gap b.gap with gab | gab
  · by_cases ha : MIN_GAP_FOR_BREAK ≤ a.gap <;>
      by_cases hb : MIN_GAP_FOR_BREAK ≤ b.gap <;>
      simp [preferredOver, hasSignificantGap, compareCandidates, ha, hb, gab] <;>
      first
        | (constructor <;> intro <;> linarith)
        | exact absurd (gab ▸ ha) hb
        | exact absurd (gab.symm ▸ hb) ha
  · by_cases ha : MIN_GAP_FOR_BREAK ≤ a.gap <;>
      by_cases hb : MIN_GAP_FOR_BREAK ≤ b.gap <;>
      simp [preferredOver, hasSignificantGap, compareCandidates, ha, hb, gab] <;>
      first
        | (constructor <;> intro <;> linarith)
        | linarith
        | tauto

theorem collectCandidatesAux_mem_ge {targetEndTime : ℚ} :
    ∀ (l : List TranscriptItem) (i : Nat) (c : BreakCandidate),
      c ∈ collectCandidatesAux targetEndTime i l → i ≤ c.index := by
  intro l
  induction l with
  | nil => intro i c hc; simp [collectCandidatesAux] at hc
  | cons item rest ih =>
    intro i c hc
    cases rest with
    | nil => simp [collectCandidatesAux] at hc
    | cons next rest2 =>
      simp only [collectCandidatesAux] at hc
      split at hc
      · split at hc
        · simp at hc
          simp [hc]
        · simp at hc
      · rcases List.mem_append.mp hc with h | h
        · split at h
          · simp at h
            simp [h]
          · simp at h
        · have := ih (i + 1) c h
          omega

theorem closestScanAux_ge {targetEndTime : ℚ} :
    ∀ (l : List TranscriptItem) (i ci : Nat) (cd : Option ℚ),
      min ci i ≤ closestScanAux targetEndTime l i ci cd := by
  intro l
  induction l with
  | nil =>
    intro i ci cd
    simp only [closestScanAux]
    omega
  | cons item rest ih =>
    intro i ci cd
    simp only [closestScanAux]
    by_cases hd : diffLtOpt (mathAbs (item.start + item.duration - targetEndTime)) cd = true <;>
      simp only [hd, if_true, if_false, Bool.false_eq_true] <;>
      split
    · omega
    · have h := ih (i + 1) i (some (mathAbs (item.start + item.duration - targetEndTime)))
      omega
    · omega
    · have h := ih (i + 1) ci cd
      omega

theorem findNaturalBreakPoint_ge (items : List TranscriptItem) (startIndex : Nat)
    (targetEndTime : ℚ) : startIndex ≤ findNaturalBreakPoint items startIndex targetEndTime := by
  simp only [findNaturalBreakPoint]
  split
  · have h := @closestScanAux_ge targetEndTime
      (items.drop startIndex) startIndex startIndex none
    omega
  · rename_i h
    have hne : collectCandidates items startIndex targetEndTime ≠ [] := by
      simpa [List.isEmpty_iff] using h
    have hmem := headD_mem (@sortByCmp_ne_nil BreakCandidate compareCandidates _ hne) default
    have hmem2 := mem_sortByCmp.mp hmem
    exact collectCandidatesAux_mem_ge _ _ _ hmem2

theorem take_to_drop (items : List TranscriptItem) (i j : Nat) (hij : i ≤ j) :
    (items.drop i).take (j - i) ++ items.drop j = items.drop i := by
  have h := List.take_append_drop (j - i) (items.drop i)
  rw [List.drop_drop] at h
  rw [(by omega : i + (j - i) = j)] at h
  exact h

theorem chunkLoop_flatten (items : List TranscriptItem) :
    ∀ (fuel i k : Nat), 21 - k ≤ fuel → 1 ≤ fuel →
      ((chunkLoop items fuel i k).map TranscriptChunk.items).flatten = items.drop i := by
  intro fuel
  induction fuel with
  | zero => intro i k h1 h2; exfalso; omega
  | succ fuel ih =>
    intro i k h1 h2
    by_cases hI : i < items.length
    · simp only [chunkLoop, if_pos hI]
      by_cases hEnd : (items.getLastD default).start + (items.getLastD default).duration -
          TOLERANCE_WINDOW ≤ (items.getD i default).start + TARGET_CHUNK_DURATION
      · rw [if_pos hEnd]
        simp
      · rw [if_neg hEnd]
        have hge := findNaturalBreakPoint_ge items i
          ((items.getD i default).start + TARGET_CHUNK_DURATION)
        by_cases hv : k + 1 > 20
        · rw [if_pos hv]
          by_cases hd : findNaturalBreakPoint items i
              ((items.getD i default).start + TARGET_CHUNK_DURATION) + 1 < items.length
          · rw [if_pos hd]
            simp only [List.map_cons, List.map_nil, List.flatten_cons, List.flatten_nil,
              List.append_nil]
            exact take_to_drop items i _ (by omega)
          · rw [if_neg hd]
            simp only [List.map_cons, List.map_nil, List.flatten_cons, List.flatten_nil,
              List.append_nil]
            have hlen : (items.drop i).length ≤ findNaturalBreakPoint items i
                ((items.getD i default).start + TARGET_CHUNK_DURATION) + 1 - i := by
              simp only [List.length_drop]
              omega
            rw [List.take_of_length_le hlen]
        · rw [if_neg hv]
          simp only [List.map_cons, List.flatten_cons]
          have hrec := ih (findNaturalBreakPoint items i
              ((items.getD i default).start + TARGET_CHUNK_DURATION) + 1) (k + 1)
            (by omega) (by omega)
          rw [hrec]
          exact take_to_drop items i _ (by omega)
    · simp only [chunkLoop, if_neg hI]
      exact (List.drop_eq_nil_of_le (by omega)).symm

theorem chunkLoop_length_le (items : List TranscriptItem) :
    ∀ (fuel i k : Nat), (chunkLoop items fuel i k).length ≤ max 2 (22 - k) := by
  intro fuel
  induction fuel with
  | zero => intro i k; simp only [chunkLoop, List.length_nil]; omega
  | succ fuel ih =>
    intro i k
    by_cases hI : i < items.length
    · simp only [chunkLoop, if_pos hI]
      by_cases hEnd : (items.getLastD default).start + (items.getLastD default).duration -
          TOLERANCE_WINDOW ≤ (items.getD i default).start + TARGET_CHUNK_DURATION
      · rw [if_pos hEnd]
        simp
      · rw [if_neg hEnd]
        by_cases hv : k + 1 > 20
        · rw [if_pos hv]
          by_cases hd : findNaturalBreakPoint items i
              ((items.getD i default).start + TARGET_CHUNK_DURATION) + 1 < items.length
          · rw [if_pos hd]
            simp
          · rw [if_neg hd]
            simp
        · rw [if_neg hv]
          simp only [List.length_cons]
          have h := ih (findNaturalBreakPoint items i
              ((items.getD i default).start + TARGET_CHUNK_DURATION) + 1) (k + 1)
          omega
    · simp only [chunkLoop, if_neg hI, List.length_nil]
      omega

theorem chunkLoop_fuel_irrelevant (items : List TranscriptItem) :
    ∀ (f1 f2 i k : Nat), 21 - k ≤ f1 → 1 ≤ f1 → 21 - k ≤ f2 → 1 ≤ f2 →
      chunkLoop items f1 i k = chunkLoop items f2 i k := by
  intro f1
  induction f1 with
  | zero => intro f2 i k h1 h2 h3 h4; exfalso; omega
  | succ f1 ih =>
    intro f2 i k h1 h2 h3 h4
    cases f2 with
    | zero => exfalso; omega
    | succ f2 =>
      simp only [chunkLoop]
      by_cases hI : i < items.length
      · simp only [if_pos hI]
        by_cases hEnd : (items.getLastD default).start + (items.getLastD default).duration -
            TOLERANCE_WINDOW ≤ (items.getD i default).start + TARGET_CHUNK_DURATION
        · simp only [if_pos hEnd]
        · simp only [if_neg hEnd]
          by_cases hv : k + 1 > 20
          · simp only [if_pos hv]
          · simp only [if_neg hv]
            have hrec := ih f2 (findNaturalBreakPoint items i
                ((items.getD i default).start + TARGET_CHUNK_DURATION) + 1) (k + 1)
              (by omega) (by omega) (by omega) (by omega)
            rw [hrec]
      · simp only [if_neg hI]

theorem scannedDiffs_mem_ge {targetEndTime : ℚ} :
    ∀ (l : List TranscriptItem) (i : Nat) (p : Nat × ℚ),
      p ∈ scannedDiffs targetEndTime l i → i ≤ p.1 := by
  intro l
  induction l with
  | nil => intro i p hp; simp [scannedDiffs] at hp
  | cons x rest ih =>
    intro i p hp
    simp only [scannedDiffs] at hp
    rcases List.mem_cons.mp hp with h | h
    · simp [h]
    · split at h
      · simp at h
      · have := ih (i + 1) p h
        omega

theorem closestScanAux_spec (targetEndTime : ℚ) :
    ∀ (l : List TranscriptItem) (i ci : Nat) (cd : Option ℚ),
      (closestScanAux targetEndTime l i ci cd = ci ∧
        ∀ p ∈ scannedDiffs targetEndTime l i, diffLtOpt p.2 cd = false) ∨
      (∃ p ∈ scannedDiffs targetEndTime l i,
        closestScanAux targetEndTime l i ci cd = p.1 ∧ diffLtOpt p.2 cd = true ∧
        (∀ q ∈ scannedDiffs targetEndTime l i, diffLtOpt q.2 (some p.2) = false) ∧
        (∀ q ∈ scannedDiffs targetEndTime l i, q.1 < p.1 → p.2 < q.2)) := by
  intro l
  induction l with
  | nil =>
    intro i ci cd
    left
    constructor
    · simp [closestScanAux]
    · intro p hp; simp [scannedDiffs] at hp
  | cons x rest ih =>
    intro i ci cd
    by_cases hdlt : diffLtOpt (mathAbs (x.start + x.duration - targetEndTime)) cd = true
    · by_cases hbk : targetEndTime + TOLERANCE_WINDOW * 2 < x.start + x.duration
      · right
        refine ⟨(i, mathAbs (x.start + x.duration - targetEndTime)), List.mem_cons_self _ _,
          ?_, hdlt, ?_, ?_⟩
        · simp [closestScanAux, hdlt, hbk]
        · intro q hq
          simp only [scannedDiffs, if_pos hbk] at hq
          rcases List.mem_cons.mp hq with h | h
          · rw [h]; simp [diffLtOpt]
          · simp at h
        · intro q hq hlt
          simp only [scannedDiffs, if_pos hbk] at hq
          rcases List.mem_cons.mp hq with h | h
          · rw [h] at hlt; simp at hlt
          · simp at h
      · have H := ih (i + 1) i (some (mathAbs (x.start + x.duration - targetEndTime)))
        rcases H with ⟨hres, hall⟩ | ⟨p, hpmem, hres, hplt, hmin, hfirst⟩
        · right
          refine ⟨(i, mathAbs (x.start + x.duration - targetEndTime)), List.mem_cons_self _ _,
            ?_, hdlt, ?_, ?_⟩
          · simp only [closestScanAux, hdlt, if_true, if_neg hbk]
            exact hres
          · intro q hq
            simp only [scannedDiffs, if_neg hbk] at hq
            rcases List.mem_cons.mp hq with h | h
            · rw [h]; simp [diffLtOpt]
            · exact hall q h
          · intro q hq hlt
            simp only [scannedDiffs, if_neg hbk] at hq
            rcases List.mem_cons.mp hq with h | h
            · rw [h] at hlt; simp at hlt
            · have hge2 := scannedDiffs_mem_ge rest (i + 1) q h
              simp only [] at hlt
              exfalso
              omega
        · right
          have hptail : p ∈ scannedDiffs targetEndTime (x :: rest) i := by
            simp only [scannedDiffs, if_neg hbk]
            exact List.mem_cons_of_mem _ hpmem
          have hplt2 : p.2 < mathAbs (x.start + x.duration - targetEndTime) := by
            simpa [diffLtOpt] using hplt
          refine ⟨p, hptail, ?_, ?_, ?_, ?_⟩
          · simp only [closestScanAux, hdlt, if_true, if_neg hbk]
            exact hres
          · cases cd with
            | none => rfl
            | some c =>
              simp only [diffLtOpt, decide_eq_true_eq] at hdlt ⊢
              linarith
          · intro q hq
            simp only [scannedDiffs, if_neg hbk] at hq
            rcases List.mem_cons.mp hq with h | h
            · rw [h]
              simp only [diffLtOpt, decide_eq_false_iff_not]
              intro hcon
              exact absurd (lt_trans hplt2 hcon) (lt_irrefl _)
            · exact hmin q h
          · intro q hq hlt
            simp only [scannedDiffs, if_neg hbk] at hq
            rcases List.mem_cons.mp hq with h | h
            · rw [h]
              simpa using hplt2
            · exact hfirst q h hlt
    · by_cases hbk : targetEndTime + TOLERANCE_WINDOW * 2 < x.start + x.duration
      · left
        constructor
        · simp [closestScanAux, hdlt, hbk]
        · intro p hp
          simp only [scannedDiffs, if_pos hbk] at hp
          rcases List.mem_cons.mp hp with h | h
          · rw [h]
            simpa using hdlt
          · simp at h
      · have H := ih (i + 1) ci cd
        rcases H with ⟨hres, hall⟩ | ⟨p, hpmem, hres, hplt, hmin, hfirst⟩
        · left
          constructor
          · simp only [closestScanAux, hdlt, if_false, Bool.false_eq_true, if_neg hbk]
            exact hres
          · intro p hp
            simp only [scannedDiffs, if_neg hbk] at hp
            rcases List.mem_cons.mp hp with h | h
            · rw [h]
              simpa using hdlt
            · exact hall p h
        · right
          have hptail : p ∈ scannedDiffs targetEndTime (x :: rest) i := by
            simp only [scannedDiffs, if_neg hbk]
            exact List.mem_cons_of_mem _ hpmem
          refine ⟨p, hptail, ?_, hplt, ?_, ?_⟩
          · simp only [closestScanAux, hdlt, if_false, Bool.false_eq_true, if_neg hbk]
            exact hres
          · intro q hq
            simp only [scannedDiffs, if_neg hbk] at hq
            rcases List.mem_cons.mp hq with h | h
            · rw [h]
              cases cd with
              | none => exact absurd rfl hdlt
              | some c =>
                simp only [diffLtOpt, decide_eq_true_eq] at hdlt hplt
                simp only [diffLtOpt, decide_eq_false_iff_not]
                push_neg at hdlt
                intro hcon
                linarith
            · exact hmin q h
          · intro q hq hlt
            simp only [scannedDiffs, if_neg hbk] at hq
            rcases List.mem_cons.mp hq with h | h
            · rw [h]
              cases cd with
              | none => exact absurd rfl hdlt
              | some c =>
                simp only [diffLtOpt, decide_eq_true_eq] at hdlt hplt
                push_neg at hdlt
                simp only []
                linarith
            · exact hfirst q h hlt

theorem getD_drop_headD {α : Type} (l : List α) (i : Nat) (d : α) :
    l.getD i d = (l.drop i).headD d := by
  induction l generalizing i with
  | nil => simp
  | cons x rest ih =>
    cases i with
    | zero => simp
    | succ i => simpa using ih i

theorem drop_cons_head {α : Type} {items : List α} {i : Nat} {x : α} {rest : List α}
    (h : items.drop i = x :: rest) (d : α) : items.getD i d = x := by
  rw [getD_drop_headD, h]
  rfl

theorem drop_cons_tail {α : Type} {items : List α} {i : Nat} {x : α} {rest : List α}
    (h : items.drop i = x :: rest) : items.drop (i + 1) = rest := by
  rw [← List.tail_drop, h]
  rfl

theorem drop_cons_lt {α : Type} {items : List α} {i : Nat} {x : α} {rest : List α}
    (h : items.drop i = x :: rest) : i < items.length := by
  have hlen : (items.drop i).length = items.length - i := List.length_drop i items
  rw [h] at hlen
  simp at hlen
  omega

theorem scannedDiffs_items {targetEndTime : ℚ} (items : List TranscriptItem) :
    ∀ (l : List TranscriptItem) (i : Nat), items.drop i = l →
      ∀ p ∈ scannedDiffs targetEndTime l i,
        i ≤ p.1 ∧ p.1 < items.length ∧ p.2 = mathAbs (endTimeAt items p.1 - targetEndTime) := by
  intro l
  induction l with
  | nil => intro i hl p hp; simp [scannedDiffs] at hp
  | cons x rest ih =>
    intro i hl p hp
    have hx := drop_cons_head hl default
    have hrest := drop_cons_tail hl
    have hilen := drop_cons_lt hl
    simp only [scannedDiffs] at hp
    rcases List.mem_cons.mp hp with h | h
    · subst h
      refine ⟨by simp, by simp; omega, ?_⟩
      simp only [endTimeAt, hx]
    · split at h
      · simp at h
      · have hr := ih (i + 1) hrest p h
        exact ⟨by omega, hr.2.1, hr.2.2⟩

theorem scannedDiffs_last {targetEndTime : ℚ} (items : List TranscriptItem) :
    ∀ (l : List TranscriptItem) (i : Nat), items.drop i = l →
      ∀ p ∈ scannedDiffs targetEndTime l i,
        targetEndTime + TOLERANCE_WINDOW * 2 < endTimeAt items p.1 →
        ∀ q ∈ scannedDiffs targetEndTime l i, q.1 ≤ p.1 := by
  intro l
  induction l with
  | nil => intro i hl p hp; simp [scannedDiffs] at hp
  | cons x rest ih =>
    intro i hl p hp hpbig q hq
    have hx := drop_cons_head hl default
    have hrest := drop_cons_tail hl
    by_cases hbk : targetEndTime + TOLERANCE_WINDOW * 2 < x.start + x.duration
    · simp only [scannedDiffs, if_pos hbk] at hp hq
      rcases List.mem_cons.mp hp with h | h
      · rcases List.mem_cons.mp hq with h2 | h2
        · rw [h, h2]
        · simp at h2
      · simp at h
    · simp only [scannedDiffs, if_neg hbk] at hp hq
      rcases List.mem_cons.mp hp with h | h
      · exfalso
        rw [h] at hpbig
        simp only [endTimeAt, hx] at hpbig
        exact hbk hpbig
      · rcases List.mem_cons.mp hq with h2 | h2
        · have := scannedDiffs_mem_ge rest (i + 1) p h
          rw [h2]
          simp
          omega
        · exact ih (i + 1) hrest p h hpbig q h2

theorem collectCandidatesAux_sound {targetEndTime : ℚ} (items : List TranscriptItem) :
    ∀ (l : List TranscriptItem) (i : Nat), items.drop i = l →
      ∀ c ∈ collectCandidatesAux targetEndTime i l,
        i ≤ c.index ∧ c.index + 1 < items.length ∧
        targetEndTime - TOLERANCE_WINDOW ≤ endTimeAt items c.index ∧
        endTimeAt items c.index ≤ targetEndTime + TOLERANCE_WINDOW ∧
        c.gap = (items.getD (c.index + 1) default).start - endTimeAt items c.index ∧
        c.timeDiff = mathAbs (endTimeAt items c.index - targetEndTime) := by
  intro l
  induction l with
  | nil => intro i hl c hc; simp [collectCandidatesAux] at hc
  | cons x rest ih =>
    intro i hl c hc
    cases rest with
    | nil => simp [collectCandidatesAux] at hc
    | cons y rest2 =>
      have hx := drop_cons_head hl default
      have hrest := drop_cons_tail hl
      have hy := drop_cons_head hrest default
      have hlen : i + 1 < items.length := by
        have h2 : (items.drop i).length = items.length - i := List.length_drop i items
        rw [hl] at h2
        simp at h2
        omega
      have hhead : ∀ hw : targetEndTime - TOLERANCE_WINDOW ≤ x.start + x.duration ∧
          x.start + x.duration ≤ targetEndTime + TOLERANCE_WINDOW,
          c = ({ index := i, gap := getGapBetweenItems x y,
                 timeDiff := mathAbs (x.start + x.duration - targetEndTime) } : BreakCandidate) →
          i ≤ c.index ∧ c.index + 1 < items.length ∧
          targetEndTime - TOLERANCE_WINDOW ≤ endTimeAt items c.index ∧
          endTimeAt items c.index ≤ targetEndTime + TOLERANCE_WINDOW ∧
          c.gap = (items.getD (c.index + 1) default).start - endTimeAt items c.index ∧
          c.timeDiff = mathAbs (endTimeAt items c.index - targetEndTime) := by
        intro hw hcc
        subst hcc
        refine ⟨le_refl _, hlen, ?_, ?_, ?_, ?_⟩
        · simp only [endTimeAt, hx]
          exact hw.1
        · simp only [endTimeAt, hx]
          exact hw.2
        · simp only [endTimeAt, hx, hy, getGapBetweenItems]
        · simp only [endTimeAt, hx]
      simp only [collectCandidatesAux] at hc
      split at hc
      · split at hc
        · rename_i hbig hw
          simp only [List.mem_singleton] at hc
          exact hhead hw hc
        · simp at hc
      · rcases List.mem_append.mp hc with h | h
        · split at h
          · rename_i hbig hw
            simp only [List.mem_singleton] at h
            exact hhead hw h
          · simp at h
        · have hr := ih (i + 1) hrest c h
          exact ⟨by omega, hr.2⟩

/-! Claim theorems for the chunker. -/

theorem splitTranscriptIntoChunks_flatten (items : List TranscriptItem) (d : ℚ)
    (hne : items ≠ []) :
    ((splitTranscriptIntoChunks items d).map TranscriptChunk.items).flatten = items := by
  simp only [splitTranscriptIntoChunks]
  have h0 : ¬items.length = 0 := by simpa [List.length_eq_zero] using hne
  rw [if_neg h0]
  by_cases hshort : d ≤ TARGET_CHUNK_DURATION + TOLERANCE_WINDOW
  · rw [if_pos hshort]
    simp
  · rw [if_neg hshort]
    have h := chunkLoop_flatten items 21 0 0 (by omega) (by omega)
    simpa using h

/-- C1: for every non-empty segment list and every total duration,
concatenating `chunk.items` across the chunks returned by
`splitTranscriptIntoChunks`, in output order, reproduces the original
segment list exactly: no segment is lost, duplicated or reordered, and
every chunk boundary coincides with a segment boundary. -/
theorem partition_completeness (items : List TranscriptItem) (d : ℚ) (hne : items ≠ []) :
    ((splitTranscriptIntoChunks items d).map TranscriptChunk.items).flatten = items :=
  splitTranscriptIntoChunks_flatten items d hne

/-- Witness for C1 on a concrete two-segment transcript. -/
theorem partition_completeness_witness :
    c1Items ≠ [] ∧
    ((splitTranscriptIntoChunks c1Items 3).map TranscriptChunk.items).flatten = c1Items := by
  have hne : c1Items ≠ [] := by simp [c1Items]
  exact ⟨hne, partition_completeness c1Items 3 hne⟩

/-- C3: whenever `findNaturalBreakPoint` finds at least one break candidate
(a non-final segment whose end time lies within the tolerance window of the
target end time), the returned index belongs to a candidate that is optimal
under the lexicographic preference order: a candidate with a significant
silence gap (at least `MIN_GAP_FOR_BREAK`) beats any candidate without one
regardless of time distance, among same-gap-class candidates the larger gap
wins, and remaining ties go to the smallest absolute distance of the
segment end time to the target. -/
theorem break_candidate_optimal (items : List TranscriptItem) (startIndex : Nat)
    (targetEndTime : ℚ) (hne : collectCandidates items startIndex targetEndTime ≠ []) :
    ∃ c ∈ collectCandidates items startIndex targetEndTime,
      c.index = findNaturalBreakPoint items startIndex targetEndTime ∧
      (∀ c2 ∈ collectCandidates items startIndex targetEndTime, ¬preferredOver c2 c) ∧
      startIndex ≤ c.index ∧ c.index + 1 < items.length ∧
      targetEndTime - TOLERANCE_WINDOW ≤ endTimeAt items c.index ∧
      endTimeAt items c.index ≤ targetEndTime + TOLERANCE_WINDOW ∧
      c.gap = (items.getD (c.index + 1) default).start - endTimeAt items c.index ∧
      c.timeDiff = mathAbs (endTimeAt items c.index - targetEndTime) := by
  have hsne : sortByCmp compareCandidates (collectCandidates items startIndex targetEndTime) ≠ [] :=
    sortByCmp_ne_nil hne
  have hcmem : (sortByCmp compareCandidates
      (collectCandidates items startIndex targetEndTime)).headD default ∈
      collectCandidates items startIndex targetEndTime :=
    mem_sortByCmp.mp (headD_mem hsne default)
  have hsound := collectCandidatesAux_sound items (items.drop startIndex) startIndex rfl
    _ hcmem
  refine ⟨(sortByCmp compareCandidates
      (collectCandidates items startIndex targetEndTime)).headD default, hcmem, ?_, ?_,
    hsound.1, hsound.2.1, hsound.2.2.1, hsound.2.2.2.1, hsound.2.2.2.2.1, hsound.2.2.2.2.2⟩
  · have hemp : ¬(collectCandidates items startIndex targetEndTime).isEmpty = true := by
      simpa [List.isEmpty_iff] using hne
    simp only [findNaturalBreakPoint, if_neg hemp]
  · intro c2 hc2
    rw [preferredOver_iff_lt]
    have hle := sortByCmp_headD_min (collectCandidates items startIndex targetEndTime) default c2 hc2
    have hskew := compareCandidates_skew
      ((sortByCmp compareCandidates
        (collectCandidates items startIndex targetEndTime)).headD default) c2
    intro hlt
    rw [hskew] at hlt
    linarith

/-- Witness for C3 on a concrete candidate list with two candidates of
equal significant gap, broken by time distance. -/
theorem break_candidate_optimal_witness :
    collectCandidates c3Items 0 100 ≠ [] ∧
    (∃ c ∈ collectCandidates c3Items 0 100,
      c.index = findNaturalBreakPoint c3Items 0 100 ∧
      (∀ c2 ∈ collectCandidates c3Items 0 100, ¬preferredOver c2 c) ∧
      0 ≤ c.index ∧ c.index + 1 < c3Items.length ∧
      100 - TOLERANCE_WINDOW ≤ endTimeAt c3Items c.index ∧
      endTimeAt c3Items c.index ≤ 100 + TOLERANCE_WINDOW ∧
      c.gap = (c3Items.getD (c.index + 1) default).start - endTimeAt c3Items c.index ∧
      c.timeDiff = mathAbs (endTimeAt c3Items c.index - 100)) := by
  have h : collectCandidates c3Items 0 100 =
      [{ index := 0, gap := 5, timeDiff := 0 }, { index := 1, gap := 5, timeDiff := 105 }] := by
    norm_num [collectCandidates, collectCandidatesAux, c3Items, getGapBetweenItems, mathAbs,
      TOLERANCE_WINDOW, MIN_GAP_FOR_BREAK]
  have hne : collectCandidates c3Items 0 100 ≠ [] := by rw [h]; simp
  exact ⟨hne, break_candidate_optimal c3Items 0 100 hne⟩

/-- C5 counterexample: on `c5Items` with total duration 1350 s, the first
loop iteration has target end time 1200 s, which is NOT within the
tolerance window of the true end 1350 s (distance 150 s > 120 s), yet the
produced run consists of a single final chunk that absorbs all remaining
segments (via the break-search path whose break index is the last
segment).  So "absorbs all remaining segments exactly when the target end
time falls within the tolerance window of the true end" is false. -/
theorem final_chunk_condition_counterexample :
    (splitTranscriptIntoChunks c5Items 1350).length = 1 ∧
    ((splitTranscriptIntoChunks c5Items 1350).headD default).items = c5Items ∧
    TOLERANCE_WINDOW < mathAbs ((c5Items.getD 0 default).start + TARGET_CHUNK_DURATION -
      ((c5Items.getLastD default).start + (c5Items.getLastD default).duration)) := by
  refine ⟨?_, ?_, ?_⟩ <;>
    norm_num [splitTranscriptIntoChunks, chunkLoop, c5Items, findNaturalBreakPoint,
      collectCandidates, collectCandidatesAux, closestScanAux, diffLtOpt, mathAbs, joinTexts,
      sortByCmp, insertByCmp, compareCandidates, getGapBetweenItems,
      TOLERANCE_WINDOW, MIN_GAP_FOR_BREAK, TARGET_CHUNK_DURATION]

/-- C5 amended: in the chunking loop, the current chunk takes the
final-chunk branch and absorbs all remaining segments exactly when
`targetEndTime ≥ transcriptEndTime - TOLERANCE_WINDOW` (a one-sided check:
a target end time far beyond the true end also triggers it); otherwise a
break point is searched and the emitted chunk ends at the break index,
which can still absorb all remaining segments when the break index is the
last position. -/
theorem final_chunk_condition_amended (items : List TranscriptItem) (fuel i k : Nat)
    (hI : i < items.length) (hfuel : 1 ≤ fuel) :
    ((items.getLastD default).start + (items.getLastD default).duration - TOLERANCE_WINDOW ≤
        (items.getD i default).start + TARGET_CHUNK_DURATION →
      chunkLoop items fuel i k =
        [{ index := k, items := items.drop i, startTime := (items.getD i default).start,
           endTime := (items.getLastD default).start + (items.getLastD default).duration,
           text := joinTexts (items.drop i) }]) ∧
    ((items.getD i default).start + TARGET_CHUNK_DURATION <
        (items.getLastD default).start + (items.getLastD default).duration - TOLERANCE_WINDOW →
      ((chunkLoop items fuel i k).headD default).items =
        (items.drop i).take (findNaturalBreakPoint items i
          ((items.getD i default).start + TARGET_CHUNK_DURATION) + 1 - i)) := by
  cases fuel with
  | zero => exact absurd hfuel (by omega)
  | succ fuel =>
    constructor
    · intro hEnd
      simp only [chunkLoop, if_pos hI, if_pos hEnd]
    · intro hlt
      have hEnd : ¬((items.getLastD default).start + (items.getLastD default).duration -
          TOLERANCE_WINDOW ≤ (items.getD i default).start + TARGET_CHUNK_DURATION) :=
        not_le.mpr hlt
      simp only [chunkLoop, if_pos hI, if_neg hEnd]
      by_cases hv : k + 1 > 20
      · rw [if_pos hv]
        rfl
      · rw [if_neg hv]
        rfl

/-- Witness for the amended C5 on a one-segment transcript whose target end
time is past the one-sided cutoff. -/
theorem final_chunk_condition_amended_witness :
    (0 < c5wItems.length ∧ 1 ≤ 1 ∧
      (c5wItems.getLastD default).start + (c5wItems.getLastD default).duration -
        TOLERANCE_WINDOW ≤ (c5wItems.getD 0 default).start + TARGET_CHUNK_DURATION) ∧
    chunkLoop c5wItems 1 0 0 =
      [{ index := 0, items := c5wItems.drop 0, startTime := (c5wItems.getD 0 default).start,
         endTime := (c5wItems.getLastD default).start + (c5wItems.getLastD default).duration,
         text := joinTexts (c5wItems.drop 0) }] := by
  have h1 : 0 < c5wItems.length := by simp [c5wItems]
  have h2 : (c5wItems.getLastD default).start + (c5wItems.getLastD default).duration -
      TOLERANCE_WINDOW ≤ (c5wItems.getD 0 default).start + TARGET_CHUNK_DURATION := by
    norm_num [c5wItems, TOLERANCE_WINDOW, TARGET_CHUNK_DURATION]
  exact ⟨⟨h1, le_refl 1, h2⟩,
    (final_chunk_condition_amended c5wItems 1 0 0 h1 (le_refl 1)).1 h2⟩

/-- C6 counterexample: around target 400 s no segment end lies in the
tolerance window, and the fallback returns segment 1 whose end time 660 s
exceeds `target + 2 * TOLERANCE_WINDOW = 640 s`: the scan stops only AFTER
considering the first segment past the extended bound, so "the scan
considers no segment whose end time exceeds targetEndTime +
2 * toleranceWindow" is false (under that reading the closest considered
segment would be segment 0). -/
theorem fallback_scan_counterexample :
    collectCandidates c6Items 0 400 = [] ∧
    findNaturalBreakPoint c6Items 0 400 = 1 ∧
    400 + TOLERANCE_WINDOW * 2 < endTimeAt c6Items 1 := by
  refine ⟨?_, ?_, ?_⟩ <;>
    norm_num [c6Items, findNaturalBreakPoint, collectCandidates, collectCandidatesAux,
      closestScanAux, diffLtOpt, mathAbs, endTimeAt, TOLERANCE_WINDOW, MIN_GAP_FOR_BREAK]

/-- C6 amended: when no break candidate lies in the tolerance window, the
fallback returns the first position, at or after the start index, whose end
time is numerically closest to the target among the scanned positions,
where the scan walks forward and stops with (and still considers) the first
segment whose end time exceeds `targetEndTime + 2 * TOLERANCE_WINDOW`; any
scanned segment past that bound is the last scanned one; the resulting
partition is still valid (the chunks always concatenate back to the
input). -/
theorem fallback_closest_amended (items : List TranscriptItem) (startIndex : Nat)
    (targetEndTime : ℚ) (hlen : startIndex < items.length)
    (hempty : collectCandidates items startIndex targetEndTime = []) :
    ∃ p ∈ scannedDiffs targetEndTime (items.drop startIndex) startIndex,
      findNaturalBreakPoint items startIndex targetEndTime = p.1 ∧
      startIndex ≤ p.1 ∧ p.1 < items.length ∧
      p.2 = mathAbs (endTimeAt items p.1 - targetEndTime) ∧
      (∀ q ∈ scannedDiffs targetEndTime (items.drop startIndex) startIndex, p.2 ≤ q.2) ∧
      (∀ q ∈ scannedDiffs targetEndTime (items.drop startIndex) startIndex,
        q.1 < p.1 → p.2 < q.2) ∧
      (∀ q ∈ scannedDiffs targetEndTime (items.drop startIndex) startIndex,
        targetEndTime + TOLERANCE_WINDOW * 2 < endTimeAt items q.1 →
        ∀ r ∈ scannedDiffs targetEndTime (items.drop startIndex) startIndex, r.1 ≤ q.1) ∧
      (∀ d : ℚ, ((splitTranscriptIntoChunks items d).map TranscriptChunk.items).flatten = items) := by
  have hvalid : ∀ d : ℚ,
      ((splitTranscriptIntoChunks items d).map TranscriptChunk.items).flatten = items := by
    intro d
    refine splitTranscriptIntoChunks_flatten items d ?_
    intro h
    rw [h] at hlen
    simp at hlen
  have hres : findNaturalBreakPoint items startIndex targetEndTime =
      closestScanAux targetEndTime (items.drop startIndex) startIndex startIndex none := by
    simp [findNaturalBreakPoint, hempty]
  have H := closestScanAux_spec targetEndTime (items.drop startIndex) startIndex startIndex none
  rcases H with ⟨hres2, hall⟩ | ⟨p, hpmem, hres2, _hplt, hmin, hfirst⟩
  · exfalso
    have hne : items.drop startIndex ≠ [] := by
      simp only [ne_eq, List.drop_eq_nil_iff]
      omega
    rcases hx : items.drop startIndex with _ | ⟨x, rest⟩
    · exact hne hx
    · have hhead := hall ((startIndex, mathAbs (x.start + x.duration - targetEndTime))) (by
        rw [hx]
        simp only [scannedDiffs]
        exact List.mem_cons_self _ _)
      simp [diffLtOpt] at hhead
  · have hitems := scannedDiffs_items items (items.drop startIndex) startIndex rfl p hpmem
    refine ⟨p, hpmem, hres.trans hres2, hitems.1, hitems.2.1, hitems.2.2, ?_, hfirst, ?_, hvalid⟩
    · intro q hq
      have h := hmin q hq
      simp only [diffLtOpt, decide_eq_false_iff_not, not_lt] at h
      exact h
    · intro q hq hqbig r hr
      exact scannedDiffs_last items (items.drop startIndex) startIndex rfl q hq hqbig r hr

/-- Witness for the amended C6 on the two-segment fallback example. -/
theorem fallback_closest_amended_witness :
    (0 < c6wItems.length ∧ collectCandidates c6wItems 0 400 = []) ∧
    (∃ p ∈ scannedDiffs 400 (c6wItems.drop 0) 0,
      findNaturalBreakPoint c6wItems 0 400 = p.1 ∧
      0 ≤ p.1 ∧ p.1 < c6wItems.length ∧
      p.2 = mathAbs (endTimeAt c6wItems p.1 - 400) ∧
      (∀ q ∈ scannedDiffs 400 (c6wItems.drop 0) 0, p.2 ≤ q.2) ∧
      (∀ q ∈ scannedDiffs 400 (c6wItems.drop 0) 0, q.1 < p.1 → p.2 < q.2) ∧
      (∀ q ∈ scannedDiffs 400 (c6wItems.drop 0) 0,
        400 + TOLERANCE_WINDOW * 2 < endTimeAt c6wItems q.1 →
        ∀ r ∈ scannedDiffs 400 (c6wItems.drop 0) 0, r.1 ≤ q.1) ∧
      (∀ d : ℚ, ((splitTranscriptIntoChunks c6wItems d).map
        TranscriptChunk.items).flatten = c6wItems)) := by
  have h1 : 0 < c6wItems.length := by simp [c6wItems]
  have h2 : collectCandidates c6wItems 0 400 = [] := by
    norm_num [c6wItems, collectCandidates, collectCandidatesAux, mathAbs,
      TOLERANCE_WINDOW, MIN_GAP_FOR_BREAK]
  exact ⟨⟨h1, h2⟩, fallback_closest_amended c6wItems 0 400 h1 h2⟩

/-- C7: `splitTranscriptIntoChunks` terminates on every input; the embedded
loop is independent of its iteration allowance once that covers the 21
iterations the `maxChunks` valve permits (fuel irrelevance), the number of
chunks is bounded (at most 22), and once more than 20 chunks exist the
loop stops subdividing: from a state that has already produced 20 chunks
it emits at most 2 further chunks which together hold exactly the
remaining segments. -/
theorem chunk_count_bounded_safety_valve :
    (∀ (items : List TranscriptItem) (d : ℚ), (splitTranscriptIntoChunks items d).length ≤ 22) ∧
    (∀ (items : List TranscriptItem) (fuel i k : Nat), 1 ≤ fuel → 20 ≤ k →
      (chunkLoop items fuel i k).length ≤ 2 ∧
      ((chunkLoop items fuel i k).map TranscriptChunk.items).flatten = items.drop i) ∧
    (∀ (items : List TranscriptItem) (f1 f2 i k : Nat),
      21 - k ≤ f1 → 1 ≤ f1 → 21 - k ≤ f2 → 1 ≤ f2 →
      chunkLoop items f1 i k = chunkLoop items f2 i k) := by
  refine ⟨?_, ?_, ?_⟩
  · intro items d
    simp only [splitTranscriptIntoChunks]
    by_cases h0 : items.length = 0
    · rw [if_pos h0]
      simp
    · rw [if_neg h0]
      by_cases hshort : d ≤ TARGET_CHUNK_DURATION + TOLERANCE_WINDOW
      · rw [if_pos hshort]
        simp
      · rw [if_neg hshort]
        have h := chunkLoop_length_le items 21 0 0
        omega
  · intro items fuel i k hfuel hk
    constructor
    · have h := chunkLoop_length_le items fuel i k
      omega
    · exact chunkLoop_flatten items fuel i k (by omega) hfuel
  · exact fun items f1 f2 i k h1 h2 h3 h4 => chunkLoop_fuel_irrelevant items f1 f2 i k h1 h2 h3 h4

/-- Witness for C7's hypothesis-bearing parts at a concrete state that has
already produced 20 chunks. -/
theorem chunk_count_bounded_safety_valve_witness :
    (1 ≤ 1 ∧ 20 ≤ 20) ∧
    ((chunkLoop c7Items 1 0 20).length ≤ 2 ∧
      ((chunkLoop c7Items 1 0 20).map TranscriptChunk.items).flatten = c7Items.drop 0) :=
  ⟨⟨le_refl 1, le_refl 20⟩,
    chunk_count_bounded_safety_valve.2.1 c7Items 1 0 20 (le_refl 1) (le_refl 20)⟩

/-- C8: the single-chunk shortcut threshold is 1320 s; for every non-empty
segment list whose total duration is at most that, exactly one chunk is
returned containing all segments, with index 0, start time of the first
segment, end time of the last segment, and the space-joined text; an empty
segment list yields an empty chunk sequence rather than an error. -/
theorem short_transcript_single_chunk :
    (TARGET_CHUNK_DURATION + TOLERANCE_WINDOW = (1320 : ℚ)) ∧
    (∀ (items : List TranscriptItem) (d : ℚ), items ≠ [] →
      d ≤ TARGET_CHUNK_DURATION + TOLERANCE_WINDOW →
      splitTranscriptIntoChunks items d =
        [{ index := 0, items := items, startTime := (items.headD default).start,
           endTime := (items.getLastD default).start + (items.getLastD default).duration,
           text := String.intercalate " " (items.map TranscriptItem.text) }]) ∧
    (∀ d : ℚ, splitTranscriptIntoChunks [] d = []) := by
  refine ⟨?_, ?_, ?_⟩
  · norm_num [TARGET_CHUNK_DURATION, TOLERANCE_WINDOW]
  · intro items d hne hshort
    have h0 : ¬items.length = 0 := by simpa [List.length_eq_zero] using hne
    simp only [splitTranscriptIntoChunks, if_neg h0, if_pos hshort]
    rfl
  · intro d
    rfl

/-- Witness for C8 on a concrete 5-second transcript. -/
theorem short_transcript_single_chunk_witness :
    (c8Items ≠ [] ∧ (5 : ℚ) ≤ TARGET_CHUNK_DURATION + TOLERANCE_WINDOW) ∧
    splitTranscriptIntoChunks c8Items 5 =
      [{ index := 0, items := c8Items, startTime := (c8Items.headD default).start,
         endTime := (c8Items.getLastD default).start + (c8Items.getLastD default).duration,
         text := String.intercalate " " (c8Items.map TranscriptItem.text) }] := by
  have h1 : c8Items ≠ [] := by simp [c8Items]
  have h2 : (5 : ℚ) ≤ TARGET_CHUNK_DURATION + TOLERANCE_WINDOW := by
    norm_num [TARGET_CHUNK_DURATION, TOLERANCE_WINDOW]
  exact ⟨⟨h1, h2⟩, short_transcript_single_chunk.2.1 c8Items 5 h1 h2⟩

/-! Aggregator helper lemmas. -/

theorem foldl_append_map {α β : Type} (g : α → β) :
    ∀ (l : List α) (acc : List β), l.foldl (fun a x => a ++ [g x]) acc = acc ++ l.map g := by
  intro l
  induction l with
  | nil => intro acc; simp
  | cons x t ih =>
    intro acc
    simp only [List.foldl_cons, List.map_cons]
    rw [ih]
    simp

theorem foldl_append_blocks {α β : Type} (h : α → List β) :
    ∀ (l : List α) (acc : List β),
      l.foldl (fun a x => a ++ h x) acc = acc ++ (l.map h).flatten := by
  intro l
  induction l with
  | nil => intro acc; simp
  | cons x t ih =>
    intro acc
    simp only [List.foldl_cons, List.map_cons, List.flatten_cons]
    rw [ih]
    simp

theorem consolidated_eq (sets : List FlashcardSet) :
    sets.enum.foldl
      (fun acc p =>
        p.2.flashcards.foldl
          (fun acc2 card => acc2 ++ [{ card with id := Nat.repr (p.1 + 1) ++ "-" ++ card.id }])
          acc)
      [] =
    (sets.enum.map (fun p => p.2.flashcards.map
      (fun card => { card with id := Nat.repr (p.1 + 1) ++ "-" ++ card.id }))).flatten := by
  have hfun : (fun (acc : List Flashcard) (p : Nat × FlashcardSet) =>
      p.2.flashcards.foldl
        (fun acc2 card => acc2 ++ [{ card with id := Nat.repr (p.1 + 1) ++ "-" ++ card.id }])
        acc) =
      fun acc p => acc ++ p.2.flashcards.map
        (fun card => { card with id := Nat.repr (p.1 + 1) ++ "-" ++ card.id }) := by
    funext acc p
    exact foldl_append_map _ _ _
  rw [hfun, foldl_append_blocks]
  simp

theorem collectSuccessful_eq_nil_iff (results : List (Except String FlashcardSet)) :
    collectSuccessful results = [] ↔ ∀ r ∈ results, exceptIsError r = true := by
  simp only [collectSuccessful, List.filterMap_eq_nil_iff]
  constructor <;> intro h r hr <;> have h2 := h r hr <;> cases r <;> simp_all [exceptIsError]

theorem generateFlashcardsFromChunks_ok (chunks : List TranscriptChunk) (lang : Language)
    (url : Option String) (gen : TranscriptChunk → Except String FlashcardSet)
    (hne : chunks ≠ []) (hs : collectSuccessful (chunks.map gen) ≠ []) :
    ∃ fs, generateFlashcardsFromChunks chunks lang url gen = Except.ok fs ∧
      fs.flashcards = ((collectSuccessful (chunks.map gen)).enum.map (fun p =>
        p.2.flashcards.map (fun card =>
          { card with id := Nat.repr (p.1 + 1) ++ "-" ++ card.id }))).flatten ∧
      fs.metadata = some { videoUrl := url, totalChunks := some chunks.length,
                           successfulChunks := some (collectSuccessful (chunks.map gen)).length,
                           fileName := none, fileSize := none } := by
  have h0 : ¬chunks.length = 0 := by simpa [List.length_eq_zero] using hne
  have hs0 : ¬(collectSuccessful (chunks.map gen)).length = 0 := by
    simpa [List.length_eq_zero] using hs
  simp only [generateFlashcardsFromChunks, if_neg h0, if_neg hs0]
  exact ⟨_, rfl, consolidated_eq _, rfl⟩

/-! Claim theorems for the aggregator. -/

/-- C2: the aggregator throws exactly when every per-chunk generation fails
(for the empty chunk list the right side is vacuous and the aggregator
indeed fails), and on an empty chunk list it fails immediately with the
no-chunks-provided error, independently of the per-chunk function, which
is never invoked. -/
theorem aggregator_error_iff_all_chunks_fail (chunks : List TranscriptChunk) (lang : Language)
    (url : Option String) (gen : TranscriptChunk → Except String FlashcardSet) :
    (exceptIsError (generateFlashcardsFromChunks chunks lang url gen) = true ↔
      ∀ c ∈ chunks, exceptIsError (gen c) = true) ∧
    (∀ gen2 : TranscriptChunk → Except String FlashcardSet,
      generateFlashcardsFromChunks [] lang url gen2 =
        Except.error "No transcript chunks provided") := by
  constructor
  · by_cases h0 : chunks.length = 0
    · have hc : chunks = [] := List.length_eq_zero.mp h0
      subst hc
      simp [generateFlashcardsFromChunks, exceptIsError]
    · simp only [generateFlashcardsFromChunks, if_neg h0]
      by_cases hs : (collectSuccessful (chunks.map gen)).length = 0
      · rw [if_pos hs]
        simp only [exceptIsError, true_iff]
        have hall := (collectSuccessful_eq_nil_iff (chunks.map gen)).mp
          (List.length_eq_zero.mp hs)
        intro c hc
        exact hall (gen c) (List.mem_map_of_mem gen hc)
      · rw [if_neg hs]
        simp only [exceptIsError, Bool.false_eq_true, false_iff]
        intro hall
        apply hs
        rw [List.length_eq_zero]
        refine (collectSuccessful_eq_nil_iff _).mpr ?_
        intro r hr
        rcases List.mem_map.mp hr with ⟨c, hc, rfl⟩
        exact hall c hc
  · intro gen2
    rfl

/-- C4: when at least one but not all per-chunk generations succeed, the
merged artifact holds exactly the successful chunks' flashcards in order,
each flashcard of the k-th successful chunk (1-based position among the
successes) re-keyed to `"<k>-<originalId>"`, and the metadata records
`totalChunks = ` number of input chunks and `successfulChunks = ` number
of successes. -/
theorem aggregator_partial_success_merge (chunks : List TranscriptChunk) (lang : Language)
    (url : Option String) (gen : TranscriptChunk → Except String FlashcardSet)
    (hne : collectSuccessful (chunks.map gen) ≠ [])
    (hnotall : (collectSuccessful (chunks.map gen)).length < chunks.length) :
    ∃ fs, generateFlashcardsFromChunks chunks lang url gen = Except.ok fs ∧
      fs.flashcards = ((collectSuccessful (chunks.map gen)).enum.map (fun p =>
        p.2.flashcards.map (fun card =>
          { card with id := Nat.repr (p.1 + 1) ++ "-" ++ card.id }))).flatten ∧
      fs.metadata = some { videoUrl := url, totalChunks := some chunks.length,
                           successfulChunks := some (collectSuccessful (chunks.map gen)).length,
                           fileName := none, fileSize := none } := by
  have hcne : chunks ≠ [] := by
    intro h
    subst h
    simp at hnotall
  exact generateFlashcardsFromChunks_ok chunks lang url gen hcne hne

/-- Witness for C4 on 3 chunks where chunk 2 (index 1) fails: 2 successes,
prefixes "1-" and "2-", `totalChunks = 3`, `successfulChunks = 2`. -/
theorem aggregator_partial_success_merge_witness :
    (collectSuccessful (c4Chunks.map (fun c =>
        if c.index = 1 then Except.error "PerChunkFailure" else Except.ok c4Set)) ≠ [] ∧
      (collectSuccessful (c4Chunks.map (fun c =>
        if c.index = 1 then Except.error "PerChunkFailure" else Except.ok c4Set))).length <
        c4Chunks.length) ∧
    (∃ fs, generateFlashcardsFromChunks c4Chunks Language.en none (fun c =>
        if c.index = 1 then Except.error "PerChunkFailure" else Except.ok c4Set) =
        Except.ok fs ∧
      fs.flashcards = ((collectSuccessful (c4Chunks.map (fun c =>
        if c.index = 1 then Except.error "PerChunkFailure" else Except.ok c4Set))).enum.map
          (fun p => p.2.flashcards.map (fun card =>
            { card with id := Nat.repr (p.1 + 1) ++ "-" ++ card.id }))).flatten ∧
      fs.metadata = some { videoUrl := none, totalChunks := some c4Chunks.length,
                           successfulChunks := some (collectSuccessful (c4Chunks.map (fun c =>
                             if c.index = 1 then Except.error "PerChunkFailure"
                             else Except.ok c4Set))).length,
                           fileName := none, fileSize := none }) := by
  have h1 : collectSuccessful (c4Chunks.map (fun c =>
      if c.index = 1 then Except.error "PerChunkFailure" else Except.ok c4Set)) ≠ [] := by
    simp [c4Chunks, collectSuccessful]
  have h2 : (collectSuccessful (c4Chunks.map (fun c =>
      if c.index = 1 then Except.error "PerChunkFailure" else Except.ok c4Set))).length <
      c4Chunks.length := by
    simp [c4Chunks, collectSuccessful]
  exact ⟨⟨h1, h2⟩, aggregator_partial_success_merge c4Chunks Language.en none _ h1 h2⟩

/-! String lemmas about the `"<k>-<originalId>"` re-keying. -/

theorem digitChar_ne_dash (m : Nat) : Nat.digitChar m ≠ '-' := by
  rcases m with _|_|_|_|_|_|_|_|_|_|_|_|_|_|_|_|n
  all_goals first
    | decide
    | (show ('*' : Char) ≠ '-'
       decide)

theorem toDigitsCore_ne_dash :
    ∀ (fuel n : Nat) (acc : List Char), '-' ∉ acc → '-' ∉ Nat.toDigitsCore 10 fuel n acc := by
  intro fuel
  induction fuel with
  | zero => intro n acc hacc; simpa [Nat.toDigitsCore] using hacc
  | succ fuel ih =>
    intro n acc hacc
    simp only [Nat.toDigitsCore]
    split
    · intro hmem
      rcases List.mem_cons.mp hmem with h | h
      · exact digitChar_ne_dash _ h.symm
      · exact hacc h
    · refine ih (n / 10) _ ?_
      intro hmem
      rcases List.mem_cons.mp hmem with h | h
      · exact digitChar_ne_dash _ h.symm
      · exact hacc h

theorem repr_ne_dash (n : Nat) : '-' ∉ (Nat.repr n).data := by
  have h : (Nat.repr n).data = Nat.toDigitsCore 10 (n + 1) n [] := rfl
  rw [h]
  exact toDigitsCore_ne_dash _ _ _ (by simp)

theorem toDigitsCore_eq_digits :
    ∀ (fuel n : Nat) (acc : List Char), 0 < n → n ≤ fuel →
      Nat.toDigitsCore 10 fuel n acc = ((Nat.digits 10 n).map Nat.digitChar).reverse ++ acc := by
  intro fuel
  induction fuel with
  | zero => intro n acc h1 h2; exfalso; omega
  | succ fuel ih =>
    intro n acc h1 h2
    have hd : Nat.digits 10 n = n % 10 :: Nat.digits 10 (n / 10) :=
      Nat.digits_def' (by norm_num) h1
    simp only [Nat.toDigitsCore]
    split
    · rename_i h
      rw [hd, h, Nat.digits_zero]
      simp
    · rename_i h
      have hpos : 0 < n / 10 := Nat.pos_of_ne_zero h
      have hle : n / 10 ≤ fuel := by
        have := Nat.div_lt_self h1 (by norm_num : 1 < 10)
        omega
      rw [ih (n / 10) _ hpos hle, hd]
      simp

theorem map_digitChar_inj :
    ∀ (l1 l2 : List Nat), (∀ d ∈ l1, d < 10) → (∀ d ∈ l2, d < 10) →
      l1.map Nat.digitChar = l2.map Nat.digitChar → l1 = l2 := by
  intro l1
  induction l1 with
  | nil =>
    intro l2 _ _ h
    cases l2 with
    | nil => rfl
    | cons d2 t2 => simp at h
  | cons d t ih =>
    intro l2 h1 h2 h
    cases l2 with
    | nil => simp at h
    | cons d2 t2 =>
      simp only [List.map_cons, List.cons.injEq] at h
      have hdec : ∀ a, a < 10 → ∀ b, b < 10 → Nat.digitChar a = Nat.digitChar b → a = b := by
        decide
      have hdd : d = d2 := hdec d (h1 d (by simp)) d2 (h2 d2 (by simp)) h.1
      subst hdd
      rw [ih t2 (fun x hx => h1 x (by simp [hx])) (fun x hx => h2 x (by simp [hx])) h.2]

theorem toDigits_ten_inj {m n : Nat} (h : Nat.toDigits 10 m = Nat.toDigits 10 n) : m = n := by
  have hzero : Nat.toDigits 10 0 = ['0'] := by decide
  have hbridge : ∀ k : Nat, 0 < k →
      Nat.toDigits 10 k = ((Nat.digits 10 k).map Nat.digitChar).reverse := by
    intro k hk
    have hb := toDigitsCore_eq_digits (k + 1) k [] hk (by omega)
    simpa [Nat.toDigits] using hb
  have hsingle : ∀ k : Nat, 0 < k → Nat.toDigits 10 k = ['0'] → False := by
    intro k hk hks
    rw [hbridge k hk] at hks
    have hmap : (Nat.digits 10 k).map Nat.digitChar = ['0'] := by
      have := congrArg List.reverse hks
      simpa using this
    rcases hdig : Nat.digits 10 k with _ | ⟨d, t⟩
    · rw [hdig] at hmap
      simp at hmap
    · rw [hdig] at hmap
      simp only [List.map_cons, List.cons.injEq] at hmap
      have ht : t = [] := by
        have := hmap.2
        simpa using this
      subst ht
      have hd10 : d < 10 := Nat.digits_lt_base (by norm_num) (by rw [hdig]; simp)
      have hd0 : d = 0 := by
        have hdec : ∀ a, a < 10 → Nat.digitChar a = '0' → a = 0 := by decide
        exact hdec d hd10 hmap.1
      subst hd0
      have hk2 := Nat.ofDigits_digits 10 k
      rw [hdig] at hk2
      simp [Nat.ofDigits] at hk2
      omega
  rcases Nat.eq_zero_or_pos m with hm | hm <;> rcases Nat.eq_zero_or_pos n with hn | hn
  · omega
  · subst hm
    rw [hzero] at h
    exact absurd h.symm (fun hc => hsingle n hn hc)
  · subst hn
    rw [hzero] at h
    exact absurd h (fun hc => hsingle m hm hc)
  · rw [hbridge m hm, hbridge n hn] at h
    have hmap : (Nat.digits 10 m).map Nat.digitChar = (Nat.digits 10 n).map Nat.digitChar := by
      have := congrArg List.reverse h
      simpa using this
    have hdig := map_digitChar_inj (Nat.digits 10 m) (Nat.digits 10 n)
      (fun d hd => Nat.digits_lt_base (by norm_num) hd)
      (fun d hd => Nat.digits_lt_base (by norm_num) hd) hmap
    have hm2 := Nat.ofDigits_digits 10 m
    have hn2 := Nat.ofDigits_digits 10 n
    rw [hdig] at hm2
    omega

theorem repr_inj {m n : Nat} (h : Nat.repr m = Nat.repr n) : m = n := by
  have hdata := congrArg String.data h
  have hm : (Nat.repr m).data = Nat.toDigits 10 m := rfl
  have hn : (Nat.repr n).data = Nat.toDigits 10 n := rfl
  rw [hm, hn] at hdata
  exact toDigits_ten_inj hdata

theorem dash_split :
    ∀ (l1 l2 r1 r2 : List Char), '-' ∉ l1 → '-' ∉ l2 →
      l1 ++ '-' :: r1 = l2 ++ '-' :: r2 → l1 = l2 ∧ r1 = r2 := by
  intro l1
  induction l1 with
  | nil =>
    intro l2 r1 r2 _ h2 h
    cases l2 with
    | nil => simpa using h
    | cons c t =>
      simp only [List.nil_append, List.cons_append, List.cons.injEq] at h
      have hmem : '-' ∈ c :: t := by
        rw [h.1]
        exact List.mem_cons_self _ _
      exact absurd hmem h2
  | cons a t ih =>
    intro l2 r1 r2 h1 h2 h
    cases l2 with
    | nil =>
      simp only [List.nil_append, List.cons_append, List.cons.injEq] at h
      have hmem : '-' ∈ a :: t := by
        rw [← h.1]
        exact List.mem_cons_self _ _
      exact absurd hmem h1
    | cons b t2 =>
      simp only [List.cons_append, List.cons.injEq] at h
      obtain ⟨rfl, h⟩ := h
      have hr := ih t2 r1 r2 (fun hm => h1 (List.mem_cons_of_mem _ hm))
        (fun hm => h2 (List.mem_cons_of_mem _ hm)) h
      exact ⟨by rw [hr.1], hr.2⟩

theorem prefixId_inj {i j : Nat} {a b : String}
    (h : Nat.repr i ++ "-" ++ a = Nat.repr j ++ "-" ++ b) : i = j ∧ a = b := by
  have hdata := congrArg String.data h
  simp only [String.data_append] at hdata
  rw [List.append_assoc, List.append_assoc] at hdata
  have hsplit := dash_split _ _ _ _ (repr_ne_dash i) (repr_ne_dash j) hdata
  exact ⟨repr_inj (String.ext hsplit.1), String.ext hsplit.2⟩

theorem enum_pairwise_fst_lt {α : Type} (l : List α) :
    l.enum.Pairwise (fun p q => p.1 < q.1) := by
  have h := List.pairwise_lt_range l.length
  rw [← List.enum_map_fst l] at h
  exact List.pairwise_map.mp h

theorem snd_mem_of_mem_enum {α : Type} {l : List α} {p : Nat × α} (h : p ∈ l.enum) : p.2 ∈ l := by
  have h2 := List.mem_map_of_mem Prod.snd h
  rwa [List.enum_map_snd] at h2

/-- C9 counterexample: a single successful chunk whose per-chunk result
reuses the id "1" twice (nothing validates within-chunk id uniqueness)
produces the merged ids "1-1", "1-1", which are not pairwise distinct. -/
theorem merged_id_uniqueness_counterexample :
    idsOfResult (generateFlashcardsFromChunks [c9Chunk] Language.en none
      (fun _ => Except.ok c9DupSet)) = ["1-1", "1-1"] ∧
    ¬(["1-1", "1-1"] : List String).Pairwise (· ≠ ·) := by
  constructor
  · decide
  · decide

/-- C9 amended: if every successful per-chunk result has pairwise-distinct
flashcard ids, then the merged artifact's ids are pairwise distinct: the
`"<k>-<originalId>"` re-keying separates different successful chunks (the
digits of `k` contain no dash, so the prefix is recoverable), and within a
chunk distinct original ids stay distinct. -/
theorem merged_id_uniqueness_amended (chunks : List TranscriptChunk) (lang : Language)
    (url : Option String) (gen : TranscriptChunk → Except String FlashcardSet)
    (fs : FlashcardSet)
    (hids : ∀ s ∈ collectSuccessful (chunks.map gen),
      (s.flashcards.map Flashcard.id).Pairwise (· ≠ ·))
    (hok : generateFlashcardsFromChunks chunks lang url gen = Except.ok fs) :
    (fs.flashcards.map Flashcard.id).Pairwise (· ≠ ·) := by
  have hcne : chunks ≠ [] := by
    intro h
    subst h
    simp [generateFlashcardsFromChunks] at hok
  have hsne : collectSuccessful (chunks.map gen) ≠ [] := by
    intro h
    simp [generateFlashcardsFromChunks, h, hcne] at hok
  obtain ⟨fs2, heq, hflash, _⟩ := generateFlashcardsFromChunks_ok chunks lang url gen hcne hsne
  rw [hok] at heq
  injection heq with heq
  subst heq
  rw [hflash, List.map_flatten, List.map_map]
  apply List.pairwise_flatten.mpr
  constructor
  · intro l hl
    rcases List.mem_map.mp hl with ⟨p, hp, rfl⟩
    have hsmem : p.2 ∈ collectSuccessful (chunks.map gen) := snd_mem_of_mem_enum hp
    have hpw := hids p.2 hsmem
    simp only [Function.comp_apply]
    rw [List.map_map]
    have hcomp : (Flashcard.id ∘ fun card =>
        ({ card with id := Nat.repr (p.1 + 1) ++ "-" ++ card.id } : Flashcard)) =
        (fun s => Nat.repr (p.1 + 1) ++ "-" ++ s) ∘ Flashcard.id := rfl
    rw [hcomp, ← List.map_map]
    refine List.Pairwise.map _ ?_ hpw
    intro a b hab heq2
    exact hab (prefixId_inj heq2).2
  · apply List.pairwise_map.mpr
    refine (enum_pairwise_fst_lt (collectSuccessful (chunks.map gen))).imp ?_
    intro p q hpq a ha b hb heq2
    simp only [Function.comp_apply, List.map_map] at ha hb
    rcases List.mem_map.mp ha with ⟨x, _, rfl⟩
    rcases List.mem_map.mp hb with ⟨y, _, rfl⟩
    have hij := (prefixId_inj heq2).1
    omega

/-- Witness for the amended C9 on one successful chunk with distinct ids. -/
theorem merged_id_uniqueness_amended_witness :
    ((∀ s ∈ collectSuccessful ([c9Chunk].map (fun _ => Except.ok c9GoodSet)),
        (s.flashcards.map Flashcard.id).Pairwise (· ≠ ·)) ∧
      generateFlashcardsFromChunks [c9Chunk] Language.en none
        (fun _ => Except.ok c9GoodSet) =
        Except.ok { topic := "T", difficulty := FlashcardDifficulty.beginner,
                    language := Language.en,
                    flashcards := [{ id := "1-1", question := "q1", answer := "a1", tags := none },
                                   { id := "1-2", question := "q2", answer := "a2", tags := none }],
                    metadata := some { videoUrl := none, totalChunks := some 1,
                                       successfulChunks := some 1, fileName := none,
                                       fileSize := none } }) ∧
    (({ topic := "T", difficulty := FlashcardDifficulty.beginner,
        language := Language.en,
        flashcards := [{ id := "1-1", question := "q1", answer := "a1", tags := none },
                       { id := "1-2", question := "q2", answer := "a2", tags := none }],
        metadata := some { videoUrl := none, totalChunks := some 1,
                           successfulChunks := some 1, fileName := none,
                           fileSize := none } } : FlashcardSet).flashcards.map
      Flashcard.id).Pairwise (· ≠ ·) := by
  have h1 : ∀ s ∈ collectSuccessful ([c9Chunk].map (fun _ => Except.ok c9GoodSet)),
      (s.flashcards.map Flashcard.id).Pairwise (· ≠ ·) := by decide
  have h2 : generateFlashcardsFromChunks [c9Chunk] Language.en none
      (fun _ => Except.ok c9GoodSet) =
      Except.ok { topic := "T", difficulty := FlashcardDifficulty.beginner,
                  language := Language.en,
                  flashcards := [{ id := "1-1", question := "q1", answer := "a1", tags := none },
                                 { id := "1-2", question := "q2", answer := "a2", tags := none }],
                  metadata := some { videoUrl := none, totalChunks := some 1,
                                     successfulChunks := some 1, fileName := none,
                                     fileSize := none } } := by rfl
  exact ⟨⟨h1, h2⟩,
    merged_id_uniqueness_amended [c9Chunk] Language.en none _ _ h1 h2⟩

/-- C10: the merge step changes only the id of each flashcard: question,
answer and tags of every merged flashcard are those of the successful
chunks' flashcards in order, and the merged count is the sum of the
successful chunks' counts. -/
theorem merge_preserves_card_fields (chunks : List TranscriptChunk) (lang : Language)
    (url : Option String) (gen : TranscriptChunk → Except String FlashcardSet)
    (fs : FlashcardSet)
    (hok : generateFlashcardsFromChunks chunks lang url gen = Except.ok fs) :
    fs.flashcards.map (fun c => (c.question, c.answer, c.tags)) =
      ((collectSuccessful (chunks.map gen)).map FlashcardSet.flashcards).flatten.map
        (fun c => (c.question, c.answer, c.tags)) ∧
    fs.flashcards.length =
      ((collectSuccessful (chunks.map gen)).map (fun s => s.flashcards.length)).sum := by
  have hcne : chunks ≠ [] := by
    intro h
    subst h
    simp [generateFlashcardsFromChunks] at hok
  have hsne : collectSuccessful (chunks.map gen) ≠ [] := by
    intro h
    simp [generateFlashcardsFromChunks, h, hcne] at hok
  obtain ⟨fs2, heq, hflash, _⟩ := generateFlashcardsFromChunks_ok chunks lang url gen hcne hsne
  rw [hok] at heq
  injection heq with heq
  subst heq
  constructor
  · rw [hflash, List.map_flatten, List.map_flatten, List.map_map, List.map_map]
    congr 1
    conv_rhs => rw [← List.enum_map_snd (collectSuccessful (chunks.map gen)), List.map_map]
    apply List.map_congr_left
    intro p _
    simp only [Function.comp, List.map_map]
    rfl
  · rw [hflash, List.length_flatten, List.map_map]
    conv_rhs => rw [← List.enum_map_snd (collectSuccessful (chunks.map gen)), List.map_map]
    congr 1
    apply List.map_congr_left
    intro p _
    simp [Function.comp]

/-- Witness for C10 on one successful chunk. -/
theorem merge_preserves_card_fields_witness :
    (generateFlashcardsFromChunks [c10Chunk] Language.en none (fun _ => Except.ok c10Set) =
      Except.ok { topic := "T", difficulty := FlashcardDifficulty.advanced,
                  language := Language.en,
                  flashcards := [{ id := "1-7", question := "q7", answer := "a7",
                                   tags := some ["x"] }],
                  metadata := some { videoUrl := none, totalChunks := some 1,
                                     successfulChunks := some 1, fileName := none,
                                     fileSize := none } }) ∧
    (({ topic := "T", difficulty := FlashcardDifficulty.advanced,
        language := Language.en,
        flashcards := [{ id := "1-7", question := "q7", answer := "a7", tags := some ["x"] }],
        metadata := some { videoUrl := none, totalChunks := some 1,
                           successfulChunks := some 1, fileName := none,
                           fileSize := none } } : FlashcardSet).flashcards.map
        (fun c => (c.question, c.answer, c.tags)) =
      ((collectSuccessful ([c10Chunk].map (fun _ => Except.ok c10Set))).map
        FlashcardSet.flashcards).flatten.map (fun c => (c.question, c.answer, c.tags)) ∧
     ({ topic := "T", difficulty := FlashcardDifficulty.advanced,
        language := Language.en,
        flashcards := [{ id := "1-7", question := "q7", answer := "a7", tags := some ["x"] }],
        metadata := some { videoUrl := none, totalChunks := some 1,
                           successfulChunks := some 1, fileName := none,
                           fileSize := none } } : FlashcardSet).flashcards.length =
      ((collectSuccessful ([c10Chunk].map (fun _ => Except.ok c10Set))).map
        (fun s => s.flashcards.length)).sum) := by
  have h2 : generateFlashcardsFromChunks [c10Chunk] Language.en none
      (fun _ => Except.ok c10Set) =
      Except.ok { topic := "T", difficulty := FlashcardDifficulty.advanced,
                  language := Language.en,
                  flashcards := [{ id := "1-7", question := "q7", answer := "a7",
                                   tags := some ["x"] }],
                  metadata := some { videoUrl := none, totalChunks := some 1,
                                     successfulChunks := some 1, fileName := none,
                                     fileSize := none } } := by rfl
  exact ⟨h2, merge_preserves_card_fields [c10Chunk] Language.en none _ _ h2⟩

end Tubesummy
